import Mathlib

set_option maxRecDepth 4000

/-!
Verification of the agent-portal front end (OTP verification workflow,
HTTP client wrapper, credential store).  The definitions below are a
shallow embedding of the TypeScript source:

  * `ModalState`, `handleOTPChange`, `handleVerify`, `handleResend`,
    `countdownEffect`, `applyEvent`, `Step`, `Reachable` embed
    frontend/components/OTPModal.tsx;
  * `ApiBody`, `jsOrStr`, `FetchOutcome`, `apiRequest` embed the
    response handling of `apiRequest` in frontend/lib/api.ts;
  * the cookie and storage layer (`setCookie`, `getCookie`,
    `deleteCookie`, `saveAuthData`, `getUserData`, `clearAuthData`,
    `isAuthenticated`) embeds the rest of frontend/lib/api.ts, with
    the browser cookie jar modelled as an association list and
    `document.cookie` reads modelled through its serialized header;
  * `Json`, `jsonStringify`, `jsonParse` model `JSON.stringify` /
    `JSON.parse` on the record subset the app stores (null, booleans,
    strings and string-keyed objects).

Asynchronous handlers are embedded as atomic transitions on the settled
state (each `await` completing before the next event), faithful to the
single-threaded event-loop model of the source.
-/

/-- State of the OTP modal, mirroring the five `useState` hooks of
`OTPModal.tsx` plus the `isOpen` prop that drives the lifecycle. -/
structure ModalState where
  isOpen : Bool
  otp : String
  loading : Bool
  error : String
  countdown : Nat
  canResend : Bool
deriving DecidableEq, Repr

/-- Initial hook values: `otp=''`, `loading=false`, `error=''`,
`countdown=60`, `canResend=false`; the modal starts closed. -/
def initialModal : ModalState :=
  { isOpen := false, otp := "", loading := false, error := "",
    countdown := 60, canResend := false }

/-- Embedding of `handleOTPChange`: strip non-digits from the input
(`value.replace(/\D/g, '')`), and if the result has length ≤ 6, store it
as the new OTP and clear the error; otherwise leave the state unchanged. -/
def handleOTPChange (s : ModalState) (input : String) : ModalState :=
  let value := String.mk (input.data.filter Char.isDigit)
  if value.length ≤ 6 then { s with otp := value, error := "" } else s

/-- Embedding of `handleVerify`.  The second component of the result is
the argument passed to the caller-supplied `onVerify` callback (`none`
means the callback was never invoked, hence no network call).  `result`
is the outcome of `await onVerify(otp)`: `Except.error m` models a
rejection whose `err.message` is `m` (the empty string models a missing
message, which JavaScript's `||` replaces by the generic text). -/
def handleVerify (s : ModalState) (result : Except String Unit) :
    ModalState × Option String :=
  if s.otp.length ≠ 6 then
    ({ s with error := "Please enter a 6-digit OTP" }, none)
  else
    match result with
    | Except.ok _ => ({ s with loading := false, error := "" }, some s.otp)
    | Except.error m =>
        ({ s with
           loading := false,
           error := if m = "" then "Invalid OTP. Please try again." else m },
         some s.otp)

/-- Embedding of `handleResend`.  `result` is the outcome of
`await authAPI.resendOTP(email, purpose)`.  On success the countdown is
reset to 60, resend is disabled, the OTP input and error are cleared; on
failure `err.message || 'Failed to resend OTP'` becomes the error and
everything else is untouched.  `loading` ends `false` either way
(`finally` block). -/
def handleResend (s : ModalState) (result : Except String Unit) : ModalState :=
  match result with
  | Except.ok _ =>
      { s with
        countdown := 60, canResend := false, otp := "", error := "",
        loading := false }
  | Except.error m =>
      { s with
        error := if m = "" then "Failed to resend OTP" else m,
        loading := false }

/-- Embedding of the countdown `useEffect` (deps `[countdown, isOpen]`):
when the modal is closed it resets the countdown to 60 and disables
resend; while open it schedules a decrementing tick when `countdown > 0`
(no state change now) and enables resend once the countdown hits 0. -/
def countdownEffect (s : ModalState) : ModalState :=
  if s.isOpen = false then { s with countdown := 60, canResend := false }
  else if 0 < s.countdown then s
  else { s with canResend := true }

/-- Events driving the modal: the parent toggling `isOpen`, the
scheduled one-second tick firing, a keystroke in the OTP field, and the
verify/resend handlers completing with the given network outcome. -/
inductive Event where
  | openModal
  | closeModal
  | tick
  | otpChange (input : String)
  | verify (result : Except String Unit)
  | resend (result : Except String Unit)

/-- State change performed by each event, before the effect re-runs. -/
def applyEvent (s : ModalState) : Event → ModalState
  | Event.openModal => { s with isOpen := true }
  | Event.closeModal => { s with isOpen := false }
  | Event.tick => { s with countdown := s.countdown - 1 }
  | Event.otpChange input => handleOTPChange s input
  | Event.verify r => (handleVerify s r).1
  | Event.resend r => handleResend s r

/-- When each event can fire: the tick only fires while the modal is
open with a pending countdown (the effect schedules it only then, and
its cleanup cancels it on close); the resend button is rendered only
when `canResend` is set; input and verification require an open modal. -/
def eventGuard (s : ModalState) : Event → Prop
  | Event.openModal => s.isOpen = false
  | Event.closeModal => s.isOpen = true
  | Event.tick => s.isOpen = true ∧ 0 < s.countdown
  | Event.otpChange _ => s.isOpen = true
  | Event.verify _ => s.isOpen = true
  | Event.resend _ => s.isOpen = true ∧ s.canResend = true

instance (s : ModalState) (e : Event) : Decidable (eventGuard s e) :=
  match e with
  | Event.openModal => inferInstanceAs (Decidable (s.isOpen = false))
  | Event.closeModal => inferInstanceAs (Decidable (s.isOpen = true))
  | Event.tick => inferInstanceAs (Decidable (s.isOpen = true ∧ 0 < s.countdown))
  | Event.otpChange _ => inferInstanceAs (Decidable (s.isOpen = true))
  | Event.verify _ => inferInstanceAs (Decidable (s.isOpen = true))
  | Event.resend _ =>
      inferInstanceAs (Decidable (s.isOpen = true ∧ s.canResend = true))

/-- One settled transition: an event fires under its guard and the
countdown effect re-runs on the produced state (React re-renders and
runs the effect after every state/prop change). -/
inductive Step : ModalState → Event → ModalState → Prop where
  | mk (s : ModalState) (e : Event) (h : eventGuard s e) :
      Step s e (countdownEffect (applyEvent s e))

/-- States reachable from the initial hook values via settled
transitions. -/
inductive Reachable : ModalState → Prop where
  | init : Reachable initialModal
  | step {s e s'} : Reachable s → Step s e s' → Reachable s'

/-- Invariant carried through the induction: resend is enabled exactly
when the countdown is exhausted, and a closed modal always sits at the
reset values 60 / disabled. -/
def StateInv (s : ModalState) : Prop :=
  (s.canResend = true ↔ s.countdown = 0) ∧
  (s.isOpen = false → s.countdown = 60 ∧ s.canResend = false)

/-- Parsed JSON body of a backend response, restricted to the two
fields the error path of `apiRequest` reads.  `none` models an absent
field; `some ""` an empty string (both are falsy to JavaScript `||`). -/
structure ApiBody where
  detail : Option String
  message : Option String
deriving DecidableEq

/-- JavaScript `a || b` for an optional string `a`: yields `b` when `a`
is absent or empty (falsy), otherwise `a`. -/
def jsOrStr : Option String → String → String
  | some s, d => if s = "" then d else s
  | none, d => d

/-- Outcome of `fetch` + `response.json()` inside `apiRequest`:
either both succeeded (carrying `response.ok` and the parsed body), or
one of them threw (network error or JSON parse error) with message `e`.
The body is parsed before the status check, so an error response also
carries a parsed body. -/
inductive FetchOutcome where
  | response (ok : Bool) (body : ApiBody)
  | thrown (e : String)

/-- Embedding of the response handling of `apiRequest`: a thrown
transport/parse failure is logged and re-raised unchanged; a non-ok
status throws `new Error(data.detail || data.message || 'API request
failed')`; an ok status returns the parsed body. -/
def apiRequest : FetchOutcome → Except String ApiBody
  | FetchOutcome.thrown e => Except.error e
  | FetchOutcome.response ok body =>
      if ok then Except.ok body
      else Except.error (jsOrStr body.detail (jsOrStr body.message "API request failed"))

/-- Shorthand: the character list of a string literal. -/
def strL (s : String) : List Char := s.data

mutual
/-- JSON values of the record subset the app persists: `null`,
booleans, strings and string-keyed objects (the stored user profile is
an object of strings and booleans). -/
inductive Json where
  | null : Json
  | bool (b : Bool) : Json
  | str (s : List Char) : Json
  | obj (fields : JFields) : Json
deriving DecidableEq
/-- Field list of a JSON object. -/
inductive JFields where
  | nil : JFields
  | cons (key : List Char) (value : Json) (rest : JFields) : JFields
deriving DecidableEq
end

/-- JavaScript truthiness of a JSON value (`if (authData.user)`):
`null`, `false` and the empty string are falsy. -/
def jsTruthy : Json → Bool
  | Json.null => false
  | Json.bool b => b
  | Json.str s => !s.isEmpty
  | Json.obj _ => true

/-- String escaping performed by `JSON.stringify` on the characters the
model covers: quote, backslash and the common control characters get a
backslash escape; other characters are emitted verbatim. -/
def escChar (c : Char) : List Char :=
  if c = '"' then ['\\', '"']
  else if c = '\\' then ['\\', '\\']
  else if c = '\n' then ['\\', 'n']
  else if c = '\t' then ['\\', 't']
  else if c = '\r' then ['\\', 'r']
  else [c]

/-- Escape a whole string, character by character. -/
def escStr : List Char → List Char
  | [] => []
  | c :: cs => escChar c ++ escStr cs

mutual
/-- Embedding of `JSON.stringify` on the modelled subset: `null`,
`true`, `false`, quoted escaped strings, and brace-delimited
`"k":v,...` objects with no whitespace (the default JavaScript
formatting). -/
def jsonStringify : Json → List Char
  | Json.null => strL "null"
  | Json.bool true => strL "true"
  | Json.bool false => strL "false"
  | Json.str s => '"' :: (escStr s ++ ['"'])
  | Json.obj fs => '\x7b' :: (stringifyJFields fs ++ ['\x7d'])
/-- Stringify a field list, comma-separated. -/
def stringifyJFields : JFields → List Char
  | JFields.nil => []
  | JFields.cons k v JFields.nil =>
      ('"' :: (escStr k ++ ['"', ':'])) ++ jsonStringify v
  | JFields.cons k v (JFields.cons k2 v2 rest) =>
      (('"' :: (escStr k ++ ['"', ':'])) ++ jsonStringify v) ++
        (',' :: stringifyJFields (JFields.cons k2 v2 rest))
end

/-- Decoding of a backslash escape by `JSON.parse`: `\n`, `\t`, `\r`
map to control characters, anything else (quote, backslash, slash) maps
to itself. -/
def unescChar (c : Char) : Char :=
  if c = 'n' then '\n' else if c = 't' then '\t' else if c = 'r' then '\r' else c

/-- String-body parser of the `JSON.parse` model: consumes characters
until the closing quote, decoding backslash escapes; fails on a dangling
backslash or a missing closing quote.  `acc` holds the decoded prefix
in reverse. -/
def parseStrAux : List Char → List Char → Option (List Char × List Char)
  | _, [] => none
  | acc, c :: rest =>
    if c = '"' then some (acc.reverse, rest)
    else if c = '\\' then
      match rest with
      | [] => none
      | e :: rest2 => parseStrAux (unescChar e :: acc) rest2
    else parseStrAux (c :: acc) rest

/-- Consume an expected literal character sequence. -/
def expectChars : List Char → List Char → Option (List Char)
  | [], cs => some cs
  | _ :: _, [] => none
  | p :: ps, c :: cs => if c = p then expectChars ps cs else none

mutual
/-- Recursive-descent value parser of the `JSON.parse` model over the
same subset as `jsonStringify` (strict: no surrounding whitespace),
with a fuel bound on nesting depth. -/
def parseJsonVal : Nat → List Char → Option (Json × List Char)
  | 0, _ => none
  | Nat.succ _, [] => none
  | Nat.succ fuel, c :: rest =>
    if c = 'n' then
      match expectChars (strL "ull") rest with
      | some r => some (Json.null, r)
      | none => none
    else if c = 't' then
      match expectChars (strL "rue") rest with
      | some r => some (Json.bool true, r)
      | none => none
    else if c = 'f' then
      match expectChars (strL "alse") rest with
      | some r => some (Json.bool false, r)
      | none => none
    else if c = '"' then
      match parseStrAux [] rest with
      | some (s, r) => some (Json.str s, r)
      | none => none
    else if c = '\x7b' then
      match rest with
      | [] => none
      | d :: rest2 =>
        if d = '\x7d' then some (Json.obj JFields.nil, rest2)
        else
          match parseJFields fuel (d :: rest2) with
          | some (fs, r) => some (Json.obj fs, r)
          | none => none
    else none
/-- Parser for a non-empty `"k":v` field list, consuming the closing
brace. -/
def parseJFields : Nat → List Char → Option (JFields × List Char)
  | 0, _ => none
  | Nat.succ _, [] => none
  | Nat.succ fuel, c :: rest =>
    if c = '"' then
      match parseStrAux [] rest with
      | some (k, r1) =>
        match r1 with
        | [] => none
        | c2 :: r2 =>
          if c2 = ':' then
            match parseJsonVal fuel r2 with
            | some (v, r3) =>
              match r3 with
              | [] => none
              | c3 :: r4 =>
                if c3 = ',' then
                  match parseJFields fuel r4 with
                  | some (fs, r5) => some (JFields.cons k v fs, r5)
                  | none => none
                else if c3 = '\x7d' then some (JFields.cons k v JFields.nil, r4)
                else none
            | none => none
          else none
      | none => none
    else none
end

/-- Embedding of `JSON.parse` on the modelled subset: parse one value
and require the input to be fully consumed; `none` models a thrown
`SyntaxError`.  The fuel `length + 1` dominates any nesting depth. -/
def jsonParse (s : List Char) : Option Json :=
  match parseJsonVal (s.length + 1) s with
  | some (j, []) => some j
  | _ => none

mutual
/-- Nesting-depth measure used to discharge the parser fuel. -/
def jsonDepth : Json → Nat
  | Json.obj fs => jfieldsDepth fs + 1
  | _ => 1
/-- Depth of a field list. -/
def jfieldsDepth : JFields → Nat
  | JFields.nil => 1
  | JFields.cons _ v rest => max (jsonDepth v) (jfieldsDepth rest) + 1
end

/-- The browser's cookie jar: one entry per cookie name, in insertion
order.  Values are stored as written by a `document.cookie` assignment
(already truncated at the first `;`, which starts the attribute list). -/
abbrev CookieJar := List (List Char × List Char)

/-- First-match lookup in an association list. -/
def lookupAssoc : List (List Char × List Char) → List Char → Option (List Char)
  | [], _ => none
  | (k, v) :: rest, n => if k = n then some v else lookupAssoc rest n

/-- Insert or overwrite a binding, keeping its position. -/
def setAssoc : List (List Char × List Char) → List Char → List Char →
    List (List Char × List Char)
  | [], k, v => [(k, v)]
  | (k', v') :: rest, k, v =>
      if k' = k then (k, v) :: rest else (k', v') :: setAssoc rest k v

/-- Remove every binding of a key. -/
def removeAssoc (m : List (List Char × List Char)) (k : List Char) :
    List (List Char × List Char) :=
  m.filter (fun p => p.1 ≠ k)

/-- Drop leading whitespace. -/
def ltrimStr (l : List Char) : List Char := l.dropWhile Char.isWhitespace

/-- Drop trailing whitespace. -/
def rtrimStr (l : List Char) : List Char :=
  (l.reverse.dropWhile Char.isWhitespace).reverse

/-- JavaScript `String.prototype.trim()`: drop whitespace at both ends. -/
def trimStr (l : List Char) : List Char := rtrimStr (ltrimStr l)

/-- A `document.cookie` assignment as the browser interprets it
(RFC 6265, section 5.2): the portion before the first `;` is the
name/value pair — everything after it is an attribute list (expires,
path, SameSite, Secure) that is consumed by the browser, not stored.
Within the pair, the text before the first `=` is the cookie name and
the remainder is the value; the browser strips leading and trailing
whitespace from both the name and the value before storing them. -/
def documentCookieAssign (jar : CookieJar) (s : List Char) : CookieJar :=
  setAssoc jar
    (trimStr ((s.takeWhile (fun c => c ≠ ';')).takeWhile (fun c => c ≠ '=')))
    (trimStr (((s.takeWhile (fun c => c ≠ ';')).dropWhile
      (fun c => c ≠ '=')).drop 1))

/-- Embedding of `setCookie`: builds the cookie string
`name=value; expires=...; path=/; SameSite=Lax` and assigns it to
`document.cookie`.  The expiration timestamp text ("now + days") and
the production-only `Secure` flag live entirely in the attribute list,
so a fixed placeholder keeps the jar semantics exact. -/
def setCookie (jar : CookieJar) (name value : List Char) : CookieJar :=
  documentCookieAssign jar
    (name ++ '=' :: (value ++ strL "; expires=EXPIRES; path=/; SameSite=Lax"))

/-- Embedding of `deleteCookie`: assigns `name=; expires=<1970>;
path=/;`, which the browser treats as an already-expired cookie and
drops from the jar. -/
def deleteCookie (jar : CookieJar) (name : List Char) : CookieJar :=
  removeAssoc jar name

/-- The `document.cookie` read string the browser serializes from the
jar: `name1=value1; name2=value2; ...`. -/
def cookieHeader : CookieJar → List Char
  | [] => []
  | (n, v) :: [] => n ++ '=' :: v
  | (n, v) :: p :: rest => (n ++ '=' :: v) ++ ';' :: ' ' :: cookieHeader (p :: rest)

/-- JavaScript `String.prototype.split(sep)` on a single-character
separator: always returns at least one (possibly empty) piece. -/
def splitOnChar (sep : Char) : List Char → List (List Char)
  | [] => [[]]
  | c :: cs =>
    match splitOnChar sep cs with
    | [] => [[]]
    | piece :: pieces =>
        if c = sep then [] :: piece :: pieces else (c :: piece) :: pieces

/-- Loop body of `getCookie`: for each `;`-piece, trim it and split it
on `=`; if the part before the first `=` equals the requested name,
return the part between the first and second `=` (JavaScript array
destructuring yields `undefined`, modelled `none`, when there is no
`=`), stopping the search either way. -/
def getCookieLoop (name : List Char) : List (List Char) → Option (List Char)
  | [] => none
  | piece :: rest =>
    match splitOnChar '=' (trimStr piece) with
    | [] => getCookieLoop name rest
    | cookieName :: parts =>
        if cookieName = name then parts.head? else getCookieLoop name rest

/-- Embedding of `getCookie`: split `document.cookie` on `;` and scan
the pieces; `none` is JavaScript `null` (not found) or `undefined`
(matching piece without `=`). -/
def getCookie (name : List Char) (documentCookie : List Char) : Option (List Char) :=
  getCookieLoop name (splitOnChar ';' documentCookie)

/-- Client-side persistent state: the browser cookie jar and the
`localStorage` key/value store. -/
structure Storage where
  cookies : CookieJar
  localStore : List (List Char × List Char)
deriving DecidableEq

/-- The argument of `saveAuthData`: access and refresh tokens plus an
optional user profile. -/
structure AuthData where
  access : List Char
  refresh : List Char
  user : Option Json
deriving DecidableEq

/-- Embedding of `saveAuthData`: write the access token cookie (7-day
expiry) then the refresh token cookie (30-day expiry); if a (truthy)
user record is present, serialize it into `localStorage` under `user`. -/
def saveAuthData (st : Storage) (a : AuthData) : Storage :=
  let jar := setCookie (setCookie st.cookies (strL "access_token") a.access)
    (strL "refresh_token") a.refresh
  match a.user with
  | some u =>
      if jsTruthy u then
        { cookies := jar,
          localStore := setAssoc st.localStore (strL "user") (jsonStringify u) }
      else { cookies := jar, localStore := st.localStore }
  | none => { cookies := jar, localStore := st.localStore }

/-- Embedding of `getUserData`: read `localStorage['user']`; absent
(JavaScript `null`) or empty (falsy) yields `null`; otherwise the value
is fed to `JSON.parse`, whose `SyntaxError` on invalid data propagates
to the caller (`Except.error ()`). -/
def getUserData (st : Storage) : Except Unit Json :=
  match lookupAssoc st.localStore (strL "user") with
  | none => Except.ok Json.null
  | some s =>
    if s.isEmpty then Except.ok Json.null
    else
      match jsonParse s with
      | some j => Except.ok j
      | none => Except.error ()

/-- Embedding of `clearAuthData`: delete both token cookies and remove
the stored profile. -/
def clearAuthData (st : Storage) : Storage :=
  { cookies := deleteCookie (deleteCookie st.cookies (strL "access_token"))
      (strL "refresh_token"),
    localStore := removeAssoc st.localStore (strL "user") }

/-- Embedding of `isAuthenticated`: `!!getCookie('access_token')` —
true exactly when the cookie is found with a non-empty value. -/
def isAuthenticated (st : Storage) : Bool :=
  match getCookie (strL "access_token") (cookieHeader st.cookies) with
  | some t => !t.isEmpty
  | none => false

/-- Well-formed cookie name: non-empty, and free of `;`, `=` and
whitespace (every name the source writes is such a literal). -/
def WFName (n : List Char) : Prop :=
  n ≠ [] ∧ ∀ c ∈ n, c ≠ ';' ∧ c ≠ '=' ∧ c.isWhitespace = false

/-- Well-formed jar: every cookie has a well-formed name and a value
free of `;` (which the browser's assignment parsing guarantees). -/
def WFJar (jar : CookieJar) : Prop :=
  ∀ p ∈ jar, WFName p.1 ∧ ∀ c ∈ p.2, c ≠ ';'

instance (n : List Char) : Decidable (WFName n) :=
  inferInstanceAs
    (Decidable (n ≠ [] ∧ ∀ c ∈ n, c ≠ ';' ∧ c ≠ '=' ∧ c.isWhitespace = false))

instance (jar : CookieJar) : Decidable (WFJar jar) :=
  inferInstanceAs (Decidable (∀ p ∈ jar, WFName p.1 ∧ ∀ c ∈ p.2, c ≠ ';'))

@[simp] theorem handleOTPChange_isOpen (s : ModalState) (i : String) :
    (handleOTPChange s i).isOpen = s.isOpen := by
  simp only [handleOTPChange]; split <;> rfl

@[simp] theorem handleOTPChange_countdown (s : ModalState) (i : String) :
    (handleOTPChange s i).countdown = s.countdown := by
  simp only [handleOTPChange]; split <;> rfl

@[simp] theorem handleOTPChange_canResend (s : ModalState) (i : String) :
    (handleOTPChange s i).canResend = s.canResend := by
  simp only [handleOTPChange]; split <;> rfl

@[simp] theorem handleVerify_fst_isOpen (s : ModalState) (r : Except String Unit) :
    (handleVerify s r).1.isOpen = s.isOpen := by
  simp only [handleVerify]; split
  · rfl
  · cases r <;> rfl

@[simp] theorem handleVerify_fst_countdown (s : ModalState) (r : Except String Unit) :
    (handleVerify s r).1.countdown = s.countdown := by
  simp only [handleVerify]; split
  · rfl
  · cases r <;> rfl

@[simp] theorem handleVerify_fst_canResend (s : ModalState) (r : Except String Unit) :
    (handleVerify s r).1.canResend = s.canResend := by
  simp only [handleVerify]; split
  · rfl
  · cases r <;> rfl

@[simp] theorem handleVerify_fst_otp (s : ModalState) (r : Except String Unit) :
    (handleVerify s r).1.otp = s.otp := by
  simp only [handleVerify]; split
  · rfl
  · cases r <;> rfl

/-- The initial hook state satisfies the invariant. -/
theorem stateInv_initial : StateInv initialModal := by
  constructor <;> simp [initialModal]

/-- The countdown effect re-establishes the invariant from the weak
premise that resend is only enabled at countdown 0. -/
theorem stateInv_effect (s : ModalState)
    (h : s.canResend = true → s.countdown = 0) : StateInv (countdownEffect s) := by
  unfold countdownEffect StateInv
  by_cases ho : s.isOpen = false
  · rw [if_pos ho]
    exact ⟨by simp, fun _ => ⟨rfl, rfl⟩⟩
  · rw [if_neg ho]
    by_cases hc : 0 < s.countdown
    · rw [if_pos hc]
      exact ⟨⟨h, fun h0 => absurd h0 (by omega)⟩, fun h' => absurd h' ho⟩
    · rw [if_neg hc]
      exact ⟨⟨fun _ => by show s.countdown = 0; omega, fun _ => rfl⟩,
        fun h' => absurd h' ho⟩

/-- Every guarded event preserves the weak premise of
`stateInv_effect`. -/
theorem applyEvent_weakInv (s : ModalState) (e : Event) (hinv : StateInv s)
    (hg : eventGuard s e) :
    (applyEvent s e).canResend = true → (applyEvent s e).countdown = 0 := by
  rcases e with _ | _ | _ | input | r | r
  · simpa [applyEvent] using hinv.1.mp
  · simpa [applyEvent] using hinv.1.mp
  · intro hcr
    simp only [applyEvent] at hcr ⊢
    have h0 := hinv.1.mp hcr
    rcases hg with ⟨_, h2⟩
    omega
  · intro hcr
    simp only [applyEvent, handleOTPChange_canResend] at hcr
    simp only [applyEvent, handleOTPChange_countdown]
    exact hinv.1.mp hcr
  · intro hcr
    simp only [applyEvent, handleVerify_fst_canResend] at hcr
    simp only [applyEvent, handleVerify_fst_countdown]
    exact hinv.1.mp hcr
  · intro hcr
    rcases r with m | u
    · simp only [applyEvent, handleResend] at hcr ⊢
      exact hinv.1.mp hcr
    · simp [applyEvent, handleResend] at hcr

/-- The invariant is preserved by every settled transition. -/
theorem stateInv_step {s e s'} (hinv : StateInv s) (hst : Step s e s') :
    StateInv s' := by
  cases hst with
  | mk hg => exact stateInv_effect _ (applyEvent_weakInv _ _ hinv hg)

/-- Every reachable state satisfies the invariant. -/
theorem reachable_stateInv {s} (h : Reachable s) : StateInv s := by
  induction h with
  | init => exact stateInv_initial
  | step _ hst ih => exact stateInv_step ih hst

/-- C1: for every workflow state, invoking verify with a code whose
length is not exactly 6 sets the local validation error "Please enter a
6-digit OTP" and returns without invoking the caller-supplied
`onVerify` callback (no network call); with length exactly 6 the
callback is invoked with the current code. -/
theorem handleVerify_spec (s : ModalState) (r : Except String Unit) :
    (s.otp.length ≠ 6 →
      (handleVerify s r).2 = none ∧
      (handleVerify s r).1.error = "Please enter a 6-digit OTP") ∧
    (s.otp.length = 6 → (handleVerify s r).2 = some s.otp) := by
  constructor
  · intro h
    simp [handleVerify, h]
  · intro h
    cases r <;> simp [handleVerify, h]

/-- Witness for C1 at the concrete states with codes "12345" and
"123456". -/
theorem handleVerify_spec_witness :
    ((handleVerify ⟨true, "12345", false, "", 60, false⟩ (Except.ok ())).2 = none ∧
      (handleVerify ⟨true, "12345", false, "", 60, false⟩ (Except.ok ())).1.error =
        "Please enter a 6-digit OTP") ∧
    (handleVerify ⟨true, "123456", false, "", 60, false⟩ (Except.error "x")).2 =
      some "123456" :=
  ⟨(handleVerify_spec ⟨true, "12345", false, "", 60, false⟩ (Except.ok ())).1
      (by decide),
    (handleVerify_spec ⟨true, "123456", false, "", 60, false⟩ (Except.error "x")).2
      (by decide)⟩

/-- C2 counterexample: from a state with a pending error, the edit
event with input "1234567" (7 digits) leaves the state unchanged, so
the error message is not cleared — refuting the claim that every edit
clears the current error. -/
theorem handleOTPChange_cex :
    (handleOTPChange ⟨true, "", false, "boom", 60, false⟩ "1234567").error ≠ "" := by
  decide

/-- C2 (amended): for every prior state and every input string of
length at most 6 (which the field's `maxLength=6` cap guarantees for
real edit events), after the edit the OTP value contains only digits,
has length ≤ 6, and the error message is cleared. -/
theorem handleOTPChange_amended (s : ModalState) (input : String)
    (h : input.length ≤ 6) :
    (∀ c ∈ (handleOTPChange s input).otp.data, c.isDigit = true) ∧
    (handleOTPChange s input).otp.length ≤ 6 ∧
    (handleOTPChange s input).error = "" := by
  have hlen : (String.mk (input.data.filter Char.isDigit)).length ≤ 6 := by
    have hf : (input.data.filter Char.isDigit).length ≤ input.data.length :=
      List.length_filter_le _ _
    have : input.data.length = input.length := rfl
    show (input.data.filter Char.isDigit).length ≤ 6
    omega
  unfold handleOTPChange
  rw [if_pos hlen]
  refine ⟨?_, hlen, rfl⟩
  intro c hc
  exact List.of_mem_filter hc

/-- Witness for C2 (amended) at input "a12b3". -/
theorem handleOTPChange_amended_witness :
    String.length "a12b3" ≤ 6 ∧
    ((∀ c ∈ (handleOTPChange ⟨true, "99", false, "e", 60, false⟩ "a12b3").otp.data,
        c.isDigit = true) ∧
      (handleOTPChange ⟨true, "99", false, "e", 60, false⟩ "a12b3").otp.length ≤ 6 ∧
      (handleOTPChange ⟨true, "99", false, "e", 60, false⟩ "a12b3").error = "") :=
  ⟨by decide,
    handleOTPChange_amended ⟨true, "99", false, "e", 60, false⟩ "a12b3" (by decide)⟩

/-- C3: closing the workflow and then opening it again yields countdown
state 60 with resend disabled, regardless of the countdown and
resendEnabled values at the close. -/
theorem openTransition_resets (s s₁ s₂ : ModalState)
    (h₁ : Step s Event.closeModal s₁) (h₂ : Step s₁ Event.openModal s₂) :
    s₂.countdown = 60 ∧ s₂.canResend = false := by
  cases h₁ with
  | mk hg₁ =>
    cases h₂ with
    | mk hg₂ => simp [applyEvent, countdownEffect]

/-- Witness for C3: a close/open pair from a state with countdown 7 and
resend enabled. -/
theorem openTransition_resets_witness :
    (countdownEffect (applyEvent (countdownEffect (applyEvent
        ⟨true, "12", false, "e", 7, true⟩ Event.closeModal)) Event.openModal)).countdown
      = 60 ∧
    (countdownEffect (applyEvent (countdownEffect (applyEvent
        ⟨true, "12", false, "e", 7, true⟩ Event.closeModal)) Event.openModal)).canResend
      = false :=
  openTransition_resets ⟨true, "12", false, "e", 7, true⟩ _ _
    (Step.mk _ _ (by decide)) (Step.mk _ _ (by decide))

/-- C4: a successful resend resets the state to code "", countdown 60,
resend disabled and no error; a failed resend surfaces the failure
message (or the generic text when the message is empty) and leaves the
countdown and code unchanged. -/
theorem handleResend_spec (s : ModalState) (m : String) :
    (handleResend s (Except.ok ())).otp = "" ∧
    (handleResend s (Except.ok ())).countdown = 60 ∧
    (handleResend s (Except.ok ())).canResend = false ∧
    (handleResend s (Except.ok ())).error = "" ∧
    (handleResend s (Except.error m)).error =
      (if m = "" then "Failed to resend OTP" else m) ∧
    (handleResend s (Except.error m)).countdown = s.countdown ∧
    (handleResend s (Except.error m)).otp = s.otp := by
  simp [handleResend]

/-- C5: in every reachable state, resend is enabled iff the countdown
is 0; across any settled transition the flag turns on only when the
countdown is at 0, and it turns off only on the close half of a reopen
or on a successful resend. -/
theorem resendEnabled_iff_countdown_zero (s : ModalState) (hs : Reachable s) :
    (s.canResend = true ↔ s.countdown = 0) ∧
    (∀ e s', Step s e s' → s.canResend = false → s'.canResend = true →
        s'.countdown = 0) ∧
    (∀ e s', Step s e s' → s.canResend = true → s'.canResend = false →
        (e = Event.closeModal ∨ e = Event.resend (Except.ok ()))) := by
  have hinv := reachable_stateInv hs
  refine ⟨hinv.1, ?_, ?_⟩
  · intro e s' hst _ hcr'
    exact (reachable_stateInv (Reachable.step hs hst)).1.mp hcr'
  · intro e s' hst hcr hcr'
    cases hst with
    | mk hg =>
      rcases e with _ | _ | _ | input | r | r
      · rcases hinv.2 hg with ⟨_, hfalse⟩
        rw [hcr] at hfalse
        exact absurd hfalse (by simp)
      · exact Or.inl rfl
      · have h0 := hinv.1.mp hcr
        have h2 : 0 < s.countdown := hg.2
        omega
      · exfalso
        have h0 := hinv.1.mp hcr
        have ho : s.isOpen = true := hg
        simp [applyEvent, countdownEffect, ho, h0, hcr] at hcr'
      · exfalso
        have h0 := hinv.1.mp hcr
        have ho : s.isOpen = true := hg
        simp [applyEvent, countdownEffect, ho, h0, hcr] at hcr'
      · rcases r with m | u
        · exfalso
          have h0 := hinv.1.mp hcr
          have ho : s.isOpen = true := hg.1
          simp [applyEvent, countdownEffect, handleResend, ho, h0, hcr] at hcr'
        · exact Or.inr rfl

/-- Witness for C5 at the initial (reachable) state. -/
theorem resendEnabled_iff_countdown_zero_witness :
    Reachable initialModal ∧
    (initialModal.canResend = true ↔ initialModal.countdown = 0) :=
  ⟨Reachable.init, (resendEnabled_iff_countdown_zero initialModal Reachable.init).1⟩

/-- C6: the HTTP client wrapper returns the parsed body on a success
status; on a non-success status it fails with the parsed body's
`detail` field, else its `message` field, else the generic "API request
failed" text (JavaScript `||`, so empty strings also fall through); a
transport or parse failure is re-raised to the caller unchanged. -/
theorem apiRequest_spec (body : ApiBody) (e d m : String) :
    apiRequest (FetchOutcome.response true body) = Except.ok body ∧
    apiRequest (FetchOutcome.thrown e) = Except.error e ∧
    apiRequest (FetchOutcome.response false body) =
      Except.error (jsOrStr body.detail (jsOrStr body.message "API request failed")) ∧
    (d ≠ "" → apiRequest (FetchOutcome.response false ⟨some d, body.message⟩) =
      Except.error d) ∧
    (m ≠ "" → apiRequest (FetchOutcome.response false ⟨none, some m⟩) =
      Except.error m) ∧
    apiRequest (FetchOutcome.response false ⟨none, none⟩) =
      Except.error "API request failed" := by
  refine ⟨rfl, rfl, rfl, ?_, ?_, rfl⟩
  · intro hd
    simp [apiRequest, jsOrStr, hd]
  · intro hm
    simp [apiRequest, jsOrStr, hm]

/-- Witness for C6 with a `detail` message "boom" and a network error
"net down". -/
theorem apiRequest_spec_witness :
    ("boom" : String) ≠ "" ∧
    apiRequest (FetchOutcome.response false ⟨some "boom", none⟩) =
      Except.error "boom" ∧
    apiRequest (FetchOutcome.thrown "net down") = Except.error "net down" :=
  ⟨by decide,
    (apiRequest_spec ⟨some "boom", none⟩ "net down" "boom" "m").2.2.2.1 (by decide),
    (apiRequest_spec ⟨some "boom", none⟩ "net down" "boom" "m").2.1⟩

theorem tw_all {α : Type} {p : α → Bool} {l : List α}
    (h : ∀ c ∈ l, p c = true) : l.takeWhile p = l :=
  List.takeWhile_eq_self_iff.mpr h

theorem all_of_tw_eq {α : Type} {p : α → Bool} {l : List α}
    (h : l.takeWhile p = l) : ∀ c ∈ l, p c = true :=
  List.takeWhile_eq_self_iff.mp h

theorem tw_length_le {α : Type} {p : α → Bool} :
    ∀ (l : List α), (l.takeWhile p).length ≤ l.length := by
  intro l
  induction l with
  | nil => simp
  | cons x xs ih =>
      by_cases hx : p x = true
      · simp [List.takeWhile_cons, hx]; exact ih
      · simp [List.takeWhile_cons, hx]

theorem tw_eq_of_length {α : Type} {p : α → Bool} :
    ∀ {l : List α}, (l.takeWhile p).length = l.length → l.takeWhile p = l := by
  intro l
  induction l with
  | nil => intro _; rfl
  | cons x xs ih =>
      intro h
      by_cases hx : p x = true
      · rw [List.takeWhile_cons, if_pos hx] at h ⊢
        simp only [List.length_cons, Nat.add_right_cancel_iff] at h
        rw [ih h]
      · rw [List.takeWhile_cons, if_neg (by simp [hx])] at h
        simp at h

theorem tw_append_pos {α : Type} {p : α → Bool} {c : α} (h : p c = false) :
    ∀ (a b : List α), ((a ++ c :: b).takeWhile p) = a.takeWhile p := by
  intro a b
  induction a with
  | nil => simp [List.takeWhile_cons, h]
  | cons x xs ih =>
      by_cases hx : p x = true
      · simp [List.takeWhile_cons, hx, ih]
      · simp [List.takeWhile_cons, hx]

theorem dw_cons_neg {α : Type} {p : α → Bool} {c : α} (h : p c = false)
    (l : List α) : (c :: l).dropWhile p = c :: l := by
  simp [List.dropWhile_cons, h]

theorem dw_all {α : Type} {p : α → Bool} :
    ∀ {l : List α}, (∀ c ∈ l, p c = true) → l.dropWhile p = [] := by
  intro l
  induction l with
  | nil => intro _; rfl
  | cons x xs ih =>
      intro h
      rw [List.dropWhile_cons, if_pos (h x (by simp))]
      exact ih fun c hc => h c (by simp [hc])

theorem dw_append_all {α : Type} {p : α → Bool} :
    ∀ {a : List α} (b : List α), (∀ c ∈ a, p c = true) →
      (a ++ b).dropWhile p = b.dropWhile p := by
  intro a
  induction a with
  | nil => intro b _; rfl
  | cons x xs ih =>
      intro b h
      rw [List.cons_append, List.dropWhile_cons, if_pos (h x (by simp))]
      exact ih b fun c hc => h c (by simp [hc])

theorem dw_append_mid {α : Type} {p : α → Bool} {c : α} (h : p c = false) :
    ∀ (a b : List α), (a ++ c :: b).dropWhile p = a.dropWhile p ++ c :: b := by
  intro a b
  induction a with
  | nil => simp [List.dropWhile_cons, h]
  | cons x xs ih =>
      by_cases hx : p x = true
      · simp [List.dropWhile_cons, hx, ih]
      · simp [List.dropWhile_cons, hx]

theorem dw_length_le {α : Type} {p : α → Bool} :
    ∀ (l : List α), (l.dropWhile p).length ≤ l.length := by
  intro l
  induction l with
  | nil => simp
  | cons x xs ih =>
      by_cases hx : p x = true
      · simp [List.dropWhile_cons, hx]; omega
      · simp [List.dropWhile_cons, hx]

theorem dw_eq_of_length {α : Type} {p : α → Bool} :
    ∀ {l : List α}, (l.dropWhile p).length = l.length → l.dropWhile p = l := by
  intro l
  induction l with
  | nil => intro _; rfl
  | cons x xs ih =>
      intro h
      by_cases hx : p x = true
      · simp [List.dropWhile_cons, hx] at h
        have := dw_length_le (p := p) xs
        omega
      · simp [List.dropWhile_cons, hx]

theorem splitOnChar_first (sep : Char) :
    ∀ l : List Char, ∃ ps,
      splitOnChar sep l = l.takeWhile (fun c => c ≠ sep) :: ps := by
  intro l
  induction l with
  | nil => exact ⟨[], rfl⟩
  | cons c cs ih =>
      rcases ih with ⟨ps, hps⟩
      by_cases hc : c = sep
      · refine ⟨cs.takeWhile (fun c => c ≠ sep) :: ps, ?_⟩
        simp [splitOnChar, hps, List.takeWhile_cons, hc]
      · refine ⟨ps, ?_⟩
        simp [splitOnChar, hps, List.takeWhile_cons, hc]

theorem splitOnChar_nosep (sep : Char) :
    ∀ {l : List Char}, (∀ c ∈ l, c ≠ sep) → splitOnChar sep l = [l] := by
  intro l
  induction l with
  | nil => intro _; rfl
  | cons c cs ih =>
      intro h
      rw [splitOnChar, ih fun x hx => h x (by simp [hx])]
      simp [h c (by simp)]

theorem splitOnChar_append (sep : Char) :
    ∀ {a : List Char} (b : List Char), (∀ c ∈ a, c ≠ sep) →
      splitOnChar sep (a ++ sep :: b) = a :: splitOnChar sep b := by
  intro a
  induction a with
  | nil =>
      intro b _
      rcases splitOnChar_first sep b with ⟨ps, hps⟩
      simp [splitOnChar, hps]
  | cons x xs ih =>
      intro b h
      rw [List.cons_append, splitOnChar, ih b fun c hc => h c (by simp [hc])]
      simp [h x (by simp)]

theorem lookup_setAssoc_self :
    ∀ (m : List (List Char × List Char)) (k v : List Char),
      lookupAssoc (setAssoc m k v) k = some v := by
  intro m k v
  induction m with
  | nil => simp [setAssoc, lookupAssoc]
  | cons p rest ih =>
      by_cases hp : p.1 = k
      · simp [setAssoc, hp, lookupAssoc]
      · simp [setAssoc, hp, lookupAssoc, ih]

theorem lookup_setAssoc_ne :
    ∀ (m : List (List Char × List Char)) (k v k' : List Char), k' ≠ k →
      lookupAssoc (setAssoc m k v) k' = lookupAssoc m k' := by
  intro m k v k' h
  have h1 : ¬(k = k') := fun hkk => h hkk.symm
  induction m with
  | nil => simp [setAssoc, lookupAssoc, h1]
  | cons p rest ih =>
      by_cases hp : p.1 = k
      · have h2 : ¬(p.1 = k') := by rw [hp]; exact h1
        simp [setAssoc, hp, lookupAssoc, h1, h2]
      · simp [setAssoc, hp, lookupAssoc, ih]

theorem lookup_removeAssoc_self :
    ∀ (m : List (List Char × List Char)) (k : List Char),
      lookupAssoc (removeAssoc m k) k = none := by
  intro m k
  induction m with
  | nil => rfl
  | cons p rest ih =>
      by_cases hp : p.1 = k
      · simpa [removeAssoc, hp, lookupAssoc] using ih
      · simpa [removeAssoc, hp, lookupAssoc] using ih

theorem lookup_removeAssoc_ne :
    ∀ (m : List (List Char × List Char)) (k k' : List Char), k' ≠ k →
      lookupAssoc (removeAssoc m k) k' = lookupAssoc m k' := by
  intro m k k' h
  have h1 : ¬(k = k') := fun hkk => h hkk.symm
  induction m with
  | nil => rfl
  | cons p rest ih =>
      by_cases hp : p.1 = k
      · simpa [removeAssoc, List.filter_cons, hp, lookupAssoc, h1] using ih
      · by_cases hq : p.1 = k'
        · simp [removeAssoc, List.filter_cons, hp, lookupAssoc, hq, h]
        · simpa [removeAssoc, List.filter_cons, hp, lookupAssoc, hq] using ih

theorem rtrim_append_mid {c : Char} (h : c.isWhitespace = false) (a b : List Char) :
    rtrimStr (a ++ c :: b) = a ++ c :: rtrimStr b := by
  unfold rtrimStr
  rw [List.reverse_append, List.reverse_cons, List.append_assoc,
    List.singleton_append, dw_append_mid h, List.reverse_append,
    List.reverse_cons, List.reverse_reverse]
  simp

theorem trim_cookie_piece {ws name v : List Char}
    (hws : ∀ c ∈ ws, c.isWhitespace = true) (hn : WFName name) :
    trimStr (ws ++ (name ++ '=' :: v)) = name ++ '=' :: rtrimStr v := by
  unfold trimStr ltrimStr
  rw [dw_append_all _ hws]
  rcases hn with ⟨hne, hprop⟩
  cases name with
  | nil => exact absurd rfl hne
  | cons h0 t =>
      rw [List.cons_append,
        dw_cons_neg (hprop h0 (by simp)).2.2,
        ← List.cons_append, rtrim_append_mid (by decide)]

theorem WFJar_setAssoc {m : CookieJar} {k v : List Char} (hj : WFJar m)
    (hk : WFName k) (hv : ∀ c ∈ v, c ≠ ';') : WFJar (setAssoc m k v) := by
  induction m with
  | nil =>
      intro p hp
      simp [setAssoc] at hp
      rw [hp]
      exact ⟨hk, hv⟩
  | cons q rest ih =>
      intro p hp
      by_cases hq : q.1 = k
      · simp only [setAssoc, if_pos hq] at hp
        rcases List.mem_cons.mp hp with h | h
        · rw [h]; exact ⟨hk, hv⟩
        · exact hj p (by simp [h])
      · simp only [setAssoc, if_neg hq] at hp
        rcases List.mem_cons.mp hp with h | h
        · rw [h]; exact hj q (by simp)
        · exact ih (fun r hr => hj r (by simp [hr])) p h

theorem WFJar_removeAssoc {m : CookieJar} (k : List Char) (hj : WFJar m) :
    WFJar (removeAssoc m k) :=
  fun p hp => hj p (List.mem_of_mem_filter hp)

theorem rtrim_cons_head {c : Char} (h : c.isWhitespace = false)
    (l : List Char) : rtrimStr (c :: l) = c :: rtrimStr l := by
  have := rtrim_append_mid h [] l
  simpa using this

theorem rtrim_length_le (l : List Char) : (rtrimStr l).length ≤ l.length := by
  unfold rtrimStr
  rw [List.length_reverse]
  calc (l.reverse.dropWhile Char.isWhitespace).length
      ≤ l.reverse.length := dw_length_le _
    _ = l.length := List.length_reverse l

theorem rtrim_eq_of_length {l : List Char}
    (h : (rtrimStr l).length = l.length) : rtrimStr l = l := by
  unfold rtrimStr at h ⊢
  rw [List.length_reverse] at h
  have h2 : (l.reverse.dropWhile Char.isWhitespace).length = l.reverse.length := by
    rw [List.length_reverse]
    exact h
  rw [dw_eq_of_length h2, List.reverse_reverse]

theorem tw_append_all {α : Type} {p : α → Bool} :
    ∀ {a : List α} (b : List α), (∀ c ∈ a, p c = true) →
      (a ++ b).takeWhile p = a ++ b.takeWhile p := by
  intro a
  induction a with
  | nil => intro b _; rfl
  | cons x xs ih =>
      intro b h
      rw [List.cons_append, List.takeWhile_cons, if_pos (h x (by simp)),
        ih b fun c hc => h c (by simp [hc]), List.cons_append]

theorem dw_none {α : Type} {p : α → Bool} :
    ∀ {l : List α}, (∀ c ∈ l, p c = false) → l.dropWhile p = l := by
  intro l h
  cases l with
  | nil => rfl
  | cons x xs => exact dw_cons_neg (h x (by simp)) xs

theorem dw_idem {α : Type} {p : α → Bool} :
    ∀ (l : List α), (l.dropWhile p).dropWhile p = l.dropWhile p := by
  intro l
  induction l with
  | nil => rfl
  | cons x xs ih =>
      by_cases hx : p x = true
      · rw [List.dropWhile_cons, if_pos hx, ih]
      · rw [dw_cons_neg (by simpa using hx) xs,
          dw_cons_neg (by simpa using hx) xs]

theorem mem_dw {α : Type} {p : α → Bool} :
    ∀ {l : List α} {c : α}, c ∈ l.dropWhile p → c ∈ l := by
  intro l
  induction l with
  | nil => intro c hc; exact hc
  | cons x xs ih =>
      intro c hc
      by_cases hx : p x = true
      · rw [List.dropWhile_cons, if_pos hx] at hc
        exact List.mem_cons_of_mem x (ih hc)
      · rwa [dw_cons_neg (by simpa using hx) xs] at hc

theorem mem_trim {l : List Char} {c : Char} (hc : c ∈ trimStr l) : c ∈ l := by
  unfold trimStr rtrimStr ltrimStr at hc
  rw [List.mem_reverse] at hc
  have h1 := mem_dw hc
  rw [List.mem_reverse] at h1
  exact mem_dw h1

theorem rtrim_rtrim (l : List Char) : rtrimStr (rtrimStr l) = rtrimStr l := by
  unfold rtrimStr
  rw [List.reverse_reverse, dw_idem]

theorem rtrim_trim (l : List Char) : rtrimStr (trimStr l) = trimStr l := by
  unfold trimStr
  exact rtrim_rtrim (ltrimStr l)

theorem trim_of_no_ws {l : List Char}
    (h : ∀ c ∈ l, c.isWhitespace = false) : trimStr l = l := by
  unfold trimStr ltrimStr rtrimStr
  rw [dw_none h, dw_none fun c hc => h c (List.mem_reverse.mp hc),
    List.reverse_reverse]

theorem trim_length_le (l : List Char) : (trimStr l).length ≤ l.length :=
  le_trans (rtrim_length_le (ltrimStr l)) (dw_length_le l)

theorem trim_eq_of_length {l : List Char}
    (h : (trimStr l).length = l.length) : trimStr l = l := by
  have h1 : (ltrimStr l).length = l.length := by
    have h2 := rtrim_length_le (ltrimStr l)
    have h3 := dw_length_le (p := Char.isWhitespace) l
    unfold trimStr at h
    unfold ltrimStr at h2 h ⊢
    omega
  have hl : ltrimStr l = l := dw_eq_of_length h1
  unfold trimStr
  rw [hl]
  exact rtrim_eq_of_length (by unfold trimStr at h; rw [hl] at h; exact h)

theorem trim_cons_head {c : Char} (h : c.isWhitespace = false)
    (l : List Char) : trimStr (c :: l) = c :: rtrimStr l := by
  unfold trimStr ltrimStr
  rw [dw_cons_neg h l]
  exact rtrim_cons_head h l

theorem setCookie_eq (jar : CookieJar) (name value : List Char)
    (hn : WFName name) :
    setCookie jar name value =
      setAssoc jar name (trimStr (value.takeWhile (fun c => c ≠ ';'))) := by
  have hns : ∀ c ∈ name, (fun c => decide (c ≠ ';')) c = true :=
    fun c hc => by simpa using (hn.2 c hc).1
  have hne : ∀ c ∈ name, (fun c => decide (c ≠ '=')) c = true :=
    fun c hc => by simpa using (hn.2 c hc).2.1
  have hattr : strL "; expires=EXPIRES; path=/; SameSite=Lax" =
      ';' :: strL " expires=EXPIRES; path=/; SameSite=Lax" := rfl
  have hpair : (name ++ '=' :: (value ++
      strL "; expires=EXPIRES; path=/; SameSite=Lax")).takeWhile
        (fun c => c ≠ ';') =
      name ++ '=' :: (value.takeWhile (fun c => c ≠ ';')) := by
    rw [tw_append_all _ hns, List.takeWhile_cons, if_pos (by decide), hattr,
      @tw_append_pos Char (fun c => decide (c ≠ ';')) ';' (by decide) value
        (strL " expires=EXPIRES; path=/; SameSite=Lax")]
  have hname : trimStr ((name ++ '=' ::
      (value.takeWhile (fun c => c ≠ ';'))).takeWhile (fun c => c ≠ '=')) =
      name := by
    rw [tw_append_pos (by decide), tw_all hne,
      trim_of_no_ws fun c hc => (hn.2 c hc).2.2]
  have hvalue : trimStr (((name ++ '=' ::
      (value.takeWhile (fun c => c ≠ ';'))).dropWhile
        (fun c => c ≠ '=')).drop 1) =
      trimStr (value.takeWhile (fun c => c ≠ ';')) := by
    rw [dw_append_all _ hne, dw_cons_neg (by decide)]
    rfl
  unfold setCookie documentCookieAssign
  rw [hpair, hname, hvalue]

theorem getCookieLoop_cons_eq (name piece : List Char)
    (pieces : List (List Char)) (n : List Char) (parts : List (List Char))
    (h : splitOnChar '=' (trimStr piece) = n :: parts) :
    getCookieLoop name (piece :: pieces) =
      if n = name then parts.head? else getCookieLoop name pieces := by
  rw [getCookieLoop, h]

theorem getCookieLoop_header (name : List Char) (hn : WFName name) :
    ∀ (jar : CookieJar), WFJar jar →
    ∀ (ws : List Char), (∀ c ∈ ws, c.isWhitespace = true ∧ c ≠ ';') →
    getCookieLoop name (splitOnChar ';' (ws ++ cookieHeader jar)) =
      (lookupAssoc jar name).map
        (fun v => (rtrimStr v).takeWhile (fun c => c ≠ '=')) := by
  intro jar
  induction jar with
  | nil =>
      intro _ ws hws
      rw [cookieHeader, List.append_nil,
        splitOnChar_nosep ';' (fun c hc => (hws c hc).2)]
      have htr : trimStr ws = [] := by
        unfold trimStr ltrimStr rtrimStr
        rw [dw_all (fun c hc => (hws c hc).1)]
        rfl
      have hsp : splitOnChar '=' (trimStr ws) = [] :: [] := by
        rw [htr]; rfl
      rw [getCookieLoop_cons_eq name ws [] [] [] hsp,
        if_neg (fun hh => hn.1 hh.symm)]
      rfl
  | cons hd tl ih =>
      intro hj ws hws
      obtain ⟨n0, v0⟩ := hd
      have hhd := hj (n0, v0) (by simp)
      have hn0 : WFName n0 := hhd.1
      have hv0 : ∀ c ∈ v0, c ≠ ';' := hhd.2
      have hjtl : WFJar tl := fun p hp => hj p (by simp [hp])
      have hfull : ∀ c ∈ ws ++ (n0 ++ '=' :: v0), c ≠ ';' := by
        intro c hc
        rcases List.mem_append.mp hc with h | h
        · exact (hws c h).2
        · rcases List.mem_append.mp h with h2 | h2
          · exact (hn0.2 c h2).1
          · rcases List.mem_cons.mp h2 with h3 | h3
            · rw [h3]; decide
            · exact hv0 c h3
      have hpce : splitOnChar '=' (trimStr (ws ++ (n0 ++ '=' :: v0))) =
          n0 :: splitOnChar '=' (rtrimStr v0) := by
        rw [trim_cookie_piece (fun c hc => (hws c hc).1) hn0,
          splitOnChar_append '=' _ (fun c hc => (hn0.2 c hc).2.1)]
      rcases splitOnChar_first '=' (rtrimStr v0) with ⟨ps, hps⟩
      cases tl with
      | nil =>
          rw [cookieHeader, splitOnChar_nosep ';' hfull,
            getCookieLoop_cons_eq name _ [] n0 _ hpce]
          by_cases heq : n0 = name
          · rw [if_pos heq, hps]
            simp [lookupAssoc, heq]
          · rw [if_neg heq]
            have hnn : ¬(n0 = name) := heq
            simp [getCookieLoop, lookupAssoc, hnn]
      | cons p rest =>
          rw [cookieHeader]
          have hshape : ws ++ ((n0 ++ '=' :: v0) ++ ';' :: ' ' ::
              cookieHeader (p :: rest)) =
              (ws ++ (n0 ++ '=' :: v0)) ++ ';' ::
                ([' '] ++ cookieHeader (p :: rest)) := by
            simp [List.append_assoc]
          rw [hshape, splitOnChar_append ';' _ hfull,
            getCookieLoop_cons_eq name _ _ n0 _ hpce]
          by_cases heq : n0 = name
          · rw [if_pos heq, hps]
            simp [lookupAssoc, heq]
          · rw [if_neg heq,
              ih hjtl [' '] (by intro c hc; simp at hc; rw [hc]; exact ⟨rfl, by decide⟩)]
            have hnn : ¬(n0 = name) := heq
            simp [lookupAssoc, hnn]

theorem getCookie_header (name : List Char) (hn : WFName name)
    (jar : CookieJar) (hj : WFJar jar) :
    getCookie name (cookieHeader jar) =
      (lookupAssoc jar name).map
        (fun v => (rtrimStr v).takeWhile (fun c => c ≠ '=')) := by
  have := getCookieLoop_header name hn jar hj [] (by intro c hc; cases hc)
  simpa [getCookie] using this

theorem expectChars_append :
    ∀ (p rest : List Char), expectChars p (p ++ rest) = some rest := by
  intro p rest
  induction p with
  | nil => rfl
  | cons c cs ih => simpa [expectChars] using ih

theorem parseStrAux_esc :
    ∀ (s acc rest : List Char),
      parseStrAux acc (escStr s ++ ('"' :: rest)) =
        some (acc.reverse ++ s, rest) := by
  intro s
  induction s with
  | nil =>
      intro acc rest
      rw [escStr, List.nil_append, parseStrAux.eq_def]
      simp
  | cons c cs ih =>
      intro acc rest
      rw [escStr, List.append_assoc]
      by_cases h1 : c = '"'
      · rw [h1]
        show parseStrAux acc ('\\' :: '"' :: (escStr cs ++ ('"' :: rest))) = _
        rw [parseStrAux]
        simp only [reduceIte]
        rw [ih]
        simp [unescChar]
      · by_cases h2 : c = '\\'
        · rw [h2]
          show parseStrAux acc ('\\' :: '\\' :: (escStr cs ++ ('"' :: rest))) = _
          rw [parseStrAux]
          simp only [reduceIte]
          rw [ih]
          simp [unescChar]
        · by_cases h3 : c = '\n'
          · rw [h3]
            show parseStrAux acc ('\\' :: 'n' :: (escStr cs ++ ('"' :: rest))) = _
            rw [parseStrAux]
            simp only [reduceIte]
            rw [ih]
            simp [unescChar]
          · by_cases h4 : c = '\t'
            · rw [h4]
              show parseStrAux acc ('\\' :: 't' :: (escStr cs ++ ('"' :: rest))) = _
              rw [parseStrAux]
              simp only [reduceIte]
              rw [ih]
              simp [unescChar]
            · by_cases h5 : c = '\r'
              · rw [h5]
                show parseStrAux acc ('\\' :: 'r' :: (escStr cs ++ ('"' :: rest))) = _
                rw [parseStrAux]
                simp only [reduceIte]
                rw [ih]
                simp [unescChar]
              · have he : escChar c = [c] := by
                  simp [escChar, h1, h2, h3, h4, h5]
                rw [he]
                show parseStrAux acc (c :: (escStr cs ++ ('"' :: rest))) = _
                rw [parseStrAux.eq_def]
                simp only [if_neg h1, if_neg h2]
                rw [ih]
                simp

theorem jsonDepth_pos (j : Json) : 1 ≤ jsonDepth j := by
  cases j <;> simp [jsonDepth]

theorem jfieldsDepth_pos (fs : JFields) : 1 ≤ jfieldsDepth fs := by
  cases fs <;> simp [jfieldsDepth]

theorem parseJsonVal_n (f : Nat) (tail : List Char) :
    parseJsonVal (Nat.succ f) ('n' :: tail) =
      match expectChars (strL "ull") tail with
      | some r => some (Json.null, r)
      | none => none := rfl

theorem parseJsonVal_t (f : Nat) (tail : List Char) :
    parseJsonVal (Nat.succ f) ('t' :: tail) =
      match expectChars (strL "rue") tail with
      | some r => some (Json.bool true, r)
      | none => none := rfl

theorem parseJsonVal_f (f : Nat) (tail : List Char) :
    parseJsonVal (Nat.succ f) ('f' :: tail) =
      match expectChars (strL "alse") tail with
      | some r => some (Json.bool false, r)
      | none => none := rfl

theorem parseJsonVal_quote (f : Nat) (tail : List Char) :
    parseJsonVal (Nat.succ f) ('"' :: tail) =
      match parseStrAux [] tail with
      | some (s, r) => some (Json.str s, r)
      | none => none := rfl

theorem parseJsonVal_lbrace (f : Nat) (d : Char) (rest2 : List Char) :
    parseJsonVal (Nat.succ f) ('\x7b' :: d :: rest2) =
      (if d = '\x7d' then some (Json.obj JFields.nil, rest2)
       else
         match parseJFields f (d :: rest2) with
         | some (fs, r) => some (Json.obj fs, r)
         | none => none) := rfl

theorem parseJFields_quote (f : Nat) (tail : List Char) :
    parseJFields (Nat.succ f) ('"' :: tail) =
      (match parseStrAux [] tail with
       | some (k, r1) =>
         match r1 with
         | [] => none
         | c2 :: r2 =>
           if c2 = ':' then
             match parseJsonVal f r2 with
             | some (v, r3) =>
               match r3 with
               | [] => none
               | c3 :: r4 =>
                 if c3 = ',' then
                   match parseJFields f r4 with
                   | some (fs, r5) => some (JFields.cons k v fs, r5)
                   | none => none
                 else if c3 = '\x7d' then some (JFields.cons k v JFields.nil, r4)
                 else none
             | none => none
           else none
       | none => none) := rfl

mutual
theorem parse_stringify : ∀ (j : Json) (fuel : Nat) (rest : List Char),
    jsonDepth j ≤ fuel →
    parseJsonVal fuel (jsonStringify j ++ rest) = some (j, rest)
  | Json.null, fuel, rest, h => by
      cases fuel with
      | zero => exact absurd h (by simp [jsonDepth])
      | succ f =>
          show parseJsonVal (Nat.succ f) ('n' :: ('u' :: 'l' :: 'l' :: rest)) = _
          rw [parseJsonVal_n]
          have : expectChars (strL "ull") ('u' :: 'l' :: 'l' :: rest) = some rest :=
            expectChars_append (strL "ull") rest
          rw [this]
  | Json.bool true, fuel, rest, h => by
      cases fuel with
      | zero => exact absurd h (by simp [jsonDepth])
      | succ f =>
          show parseJsonVal (Nat.succ f) ('t' :: ('r' :: 'u' :: 'e' :: rest)) = _
          rw [parseJsonVal_t]
          have : expectChars (strL "rue") ('r' :: 'u' :: 'e' :: rest) = some rest :=
            expectChars_append (strL "rue") rest
          rw [this]
  | Json.bool false, fuel, rest, h => by
      cases fuel with
      | zero => exact absurd h (by simp [jsonDepth])
      | succ f =>
          show parseJsonVal (Nat.succ f)
            ('f' :: ('a' :: 'l' :: 's' :: 'e' :: rest)) = _
          rw [parseJsonVal_f]
          have : expectChars (strL "alse") ('a' :: 'l' :: 's' :: 'e' :: rest) =
              some rest :=
            expectChars_append (strL "alse") rest
          rw [this]
  | Json.str s, fuel, rest, h => by
      cases fuel with
      | zero => exact absurd h (by simp [jsonDepth])
      | succ f =>
          have hsh : jsonStringify (Json.str s) ++ rest =
              '"' :: (escStr s ++ ('"' :: rest)) := by
            simp [jsonStringify]
          rw [hsh, parseJsonVal_quote, parseStrAux_esc s [] rest]
          simp
  | Json.obj JFields.nil, fuel, rest, h => by
      cases fuel with
      | zero => exact absurd h (by simp [jsonDepth])
      | succ f =>
          show parseJsonVal (Nat.succ f) ('\x7b' :: ('\x7d' :: rest)) = _
          rw [parseJsonVal_lbrace]
          simp
  | Json.obj (JFields.cons k v fs), fuel, rest, h => by
      cases fuel with
      | zero => exact absurd h (by simp [jsonDepth])
      | succ f =>
          have hdf : jfieldsDepth (JFields.cons k v fs) ≤ f := by
            simp [jsonDepth] at h
            omega
          have hfld := parse_stringify_fields k v fs f rest hdf
          obtain ⟨t, ht⟩ : ∃ t, stringifyJFields (JFields.cons k v fs) =
              '"' :: t := by
            cases fs <;> exact ⟨_, rfl⟩
          have hsh : jsonStringify (Json.obj (JFields.cons k v fs)) ++ rest =
              '\x7b' :: ('"' :: (t ++ ('\x7d' :: rest))) := by
            simp [jsonStringify, ht]
          rw [ht] at hfld
          rw [hsh, parseJsonVal_lbrace, if_neg (by decide)]
          rw [List.cons_append] at hfld
          rw [hfld]
termination_by j fuel rest h => sizeOf j

theorem parse_stringify_fields : ∀ (k : List Char) (v : Json) (fs : JFields)
    (fuel : Nat) (rest : List Char),
    jfieldsDepth (JFields.cons k v fs) ≤ fuel →
    parseJFields fuel (stringifyJFields (JFields.cons k v fs) ++
      ('\x7d' :: rest)) = some (JFields.cons k v fs, rest)
  | k, v, JFields.nil, fuel, rest, h => by
      cases fuel with
      | zero =>
          exact absurd h
            (by have := jfieldsDepth_pos (JFields.cons k v JFields.nil); omega)
      | succ f =>
          have hvd : jsonDepth v ≤ f := by
            simp [jfieldsDepth] at h
            omega
          have hv := parse_stringify v f ('\x7d' :: rest) hvd
          have hsh : stringifyJFields (JFields.cons k v JFields.nil) ++
              ('\x7d' :: rest) =
              '"' :: (escStr k ++ ('"' :: (':' ::
                (jsonStringify v ++ ('\x7d' :: rest))))) := by
            simp [stringifyJFields]
          rw [hsh, parseJFields_quote, parseStrAux_esc k []]
          simp [hv]
  | k, v, JFields.cons k2 v2 fs2, fuel, rest, h => by
      cases fuel with
      | zero =>
          exact absurd h
            (by have := jfieldsDepth_pos
                  (JFields.cons k v (JFields.cons k2 v2 fs2))
                omega)
      | succ f =>
          have hvd : jsonDepth v ≤ f := by
            simp [jfieldsDepth] at h
            omega
          have hfd : jfieldsDepth (JFields.cons k2 v2 fs2) ≤ f := by
            simp [jfieldsDepth] at h ⊢
            omega
          have hv := parse_stringify v f
            (',' :: (stringifyJFields (JFields.cons k2 v2 fs2) ++
              ('\x7d' :: rest))) hvd
          have hrest := parse_stringify_fields k2 v2 fs2 f rest hfd
          have hsh : stringifyJFields
              (JFields.cons k v (JFields.cons k2 v2 fs2)) ++ ('\x7d' :: rest) =
              '"' :: (escStr k ++ ('"' :: (':' ::
                (jsonStringify v ++ (',' ::
                  (stringifyJFields (JFields.cons k2 v2 fs2) ++
                    ('\x7d' :: rest))))))) := by
            simp [stringifyJFields]
          rw [hsh, parseJFields_quote, parseStrAux_esc k []]
          simp [hv, hrest]
termination_by k v fs fuel rest h => sizeOf (JFields.cons k v fs)
end

theorem jsonStringify_length_pos (j : Json) : 1 ≤ (jsonStringify j).length := by
  cases j with
  | null => decide
  | bool b => cases b <;> decide
  | str s => simp [jsonStringify]
  | obj fs => simp [jsonStringify]

mutual
theorem jsonDepth_le_length : ∀ (j : Json),
    jsonDepth j ≤ (jsonStringify j).length
  | Json.null => by decide
  | Json.bool b => by cases b <;> decide
  | Json.str s => by simp [jsonDepth, jsonStringify]
  | Json.obj JFields.nil => by decide
  | Json.obj (JFields.cons k v fs) => by
      have := jfieldsDepth_le_length k v fs
      simp [jsonDepth, jsonStringify] at this ⊢
      omega
termination_by j => sizeOf j

theorem jfieldsDepth_le_length : ∀ (k : List Char) (v : Json) (fs : JFields),
    jfieldsDepth (JFields.cons k v fs) ≤
      (stringifyJFields (JFields.cons k v fs)).length + 1
  | k, v, JFields.nil => by
      have hv := jsonDepth_le_length v
      have hp := jsonStringify_length_pos v
      simp only [jfieldsDepth, stringifyJFields, List.length_append,
        List.length_cons, List.length_nil]
      omega
  | k, v, JFields.cons k2 v2 fs2 => by
      have hv := jsonDepth_le_length v
      have hp := jsonStringify_length_pos v
      have hrest := jfieldsDepth_le_length k2 v2 fs2
      simp only [jfieldsDepth, stringifyJFields, List.length_append,
        List.length_cons, List.length_nil] at hrest ⊢
      omega
termination_by k v fs => sizeOf (JFields.cons k v fs)
end

/-- Round trip of the `JSON.stringify` / `JSON.parse` model: parsing a
stringified value yields the value back. -/
theorem jsonParse_stringify (j : Json) :
    jsonParse (jsonStringify j) = some j := by
  unfold jsonParse
  have hd : jsonDepth j ≤ (jsonStringify j).length + 1 :=
    le_trans (jsonDepth_le_length j) (by omega)
  have := parse_stringify j ((jsonStringify j).length + 1) [] hd
  rw [List.append_nil] at this
  rw [this]

theorem tw_no_semi (v : List Char) :
    ∀ c ∈ v.takeWhile (fun c => c ≠ ';'), c ≠ ';' := by
  intro c hc
  have := List.mem_takeWhile_imp hc
  simpa using this

theorem jsonStringify_isEmpty (j : Json) : (jsonStringify j).isEmpty = false := by
  cases hj : jsonStringify j with
  | nil =>
      have := jsonStringify_length_pos j
      rw [hj] at this
      simp at this
  | cons c t => rfl

theorem saveAuthData_cookies (st : Storage) (a : AuthData) :
    (saveAuthData st a).cookies =
      setCookie (setCookie st.cookies (strL "access_token") a.access)
        (strL "refresh_token") a.refresh := by
  unfold saveAuthData
  cases a.user with
  | none => rfl
  | some u =>
      by_cases hu : jsTruthy u
      · simp [hu]
      · simp [hu]

/-- What `isAuthenticated` sees right after `saveAuthData`: the access
token as stored (truncated at its first `;` and stripped of leading and
trailing whitespace by the browser), truncated at its first `=` by
`getCookie`'s read-side parsing, tested non-empty. -/
theorem isAuthenticated_save (st : Storage) (a : AuthData)
    (hj : WFJar st.cookies) :
    isAuthenticated (saveAuthData st a) =
      !(((trimStr (a.access.takeWhile (fun c => c ≠ ';'))).takeWhile
        (fun c => c ≠ '=')).isEmpty) := by
  have hAT : WFName (strL "access_token") := by decide
  have hRT : WFName (strL "refresh_token") := by decide
  have hja : WFJar (setAssoc st.cookies (strL "access_token")
      (trimStr (a.access.takeWhile (fun c => c ≠ ';')))) :=
    WFJar_setAssoc hj hAT fun c hc => tw_no_semi a.access c (mem_trim hc)
  have hjb : WFJar (setAssoc (setAssoc st.cookies (strL "access_token")
      (trimStr (a.access.takeWhile (fun c => c ≠ ';'))))
      (strL "refresh_token")
      (trimStr (a.refresh.takeWhile (fun c => c ≠ ';')))) :=
    WFJar_setAssoc hja hRT fun c hc => tw_no_semi a.refresh c (mem_trim hc)
  unfold isAuthenticated
  rw [saveAuthData_cookies, setCookie_eq _ _ _ hAT, setCookie_eq _ _ _ hRT,
    getCookie_header _ hAT _ hjb,
    lookup_setAssoc_ne _ _ _ _ (by decide),
    lookup_setAssoc_self, Option.map_some', rtrim_trim]

/-- After `clearAuthData` the access token cookie is gone, so
`isAuthenticated` is false. -/
theorem isAuthenticated_clear (st : Storage) (hj : WFJar st.cookies) :
    isAuthenticated (clearAuthData st) = false := by
  have hAT : WFName (strL "access_token") := by decide
  have hj2 : WFJar (removeAssoc (removeAssoc st.cookies (strL "access_token"))
      (strL "refresh_token")) :=
    WFJar_removeAssoc _ (WFJar_removeAssoc _ hj)
  unfold isAuthenticated clearAuthData deleteCookie
  rw [getCookie_header _ hAT _ hj2,
    lookup_removeAssoc_ne _ _ _ (by decide),
    lookup_removeAssoc_self]
  rfl

/-- C7 counterexample: the credentials record with the non-empty access
token ";" makes isAuthenticated false immediately after save — the
browser stores everything after the first `;` as cookie attributes, so
the stored value is empty and the presence check fails, refuting the
claim for arbitrary non-empty tokens. -/
theorem saveAuthData_cex :
    strL ";" ≠ [] ∧
    isAuthenticated (saveAuthData ⟨[], []⟩ ⟨strL ";", strL "B", none⟩) = false := by
  refine ⟨by decide, by decide⟩

/-- C7 (amended): for every well-formed prior storage and credentials
record whose access token starts with a character other than `;`, `=`
and whitespace (any real token does), isAuthenticated is true
immediately after save; when a (truthy) user profile is included,
reading the profile returns exactly the record that was saved; and
immediately after clear, isAuthenticated is false. -/
theorem saveAuthData_amended (st : Storage) (a : AuthData) (u : Json)
    (hj : WFJar st.cookies) :
    ((∃ c t, a.access = c :: t ∧ c ≠ ';' ∧ c ≠ '=' ∧ c.isWhitespace = false) →
        isAuthenticated (saveAuthData st a) = true) ∧
    (a.user = some u → jsTruthy u = true →
        getUserData (saveAuthData st a) = Except.ok u) ∧
    isAuthenticated (clearAuthData st) = false := by
  refine ⟨?_, ?_, isAuthenticated_clear st hj⟩
  · rintro ⟨c, t, hacc, hc1, hc2, hc3⟩
    rw [isAuthenticated_save st a hj, hacc]
    rw [List.takeWhile_cons, if_pos (by simpa using hc1),
      trim_cons_head hc3, List.takeWhile_cons, if_pos (by simpa using hc2)]
    rfl
  · intro hu htruthy
    have hls : (saveAuthData st a).localStore =
        setAssoc st.localStore (strL "user") (jsonStringify u) := by
      unfold saveAuthData
      rw [hu]
      simp [htruthy]
    unfold getUserData
    rw [hls, lookup_setAssoc_self]
    simp [jsonStringify_isEmpty, jsonParse_stringify]

/-- Witness for C7 (amended): the spec scenario
save(access "A", refresh "B", user with username "bob") from empty
storage. -/
theorem saveAuthData_amended_witness :
    isAuthenticated (saveAuthData ⟨[], []⟩
      ⟨strL "A", strL "B", some (Json.obj (JFields.cons (strL "username")
        (Json.str (strL "bob")) JFields.nil))⟩) = true ∧
    getUserData (saveAuthData ⟨[], []⟩
      ⟨strL "A", strL "B", some (Json.obj (JFields.cons (strL "username")
        (Json.str (strL "bob")) JFields.nil))⟩) =
      Except.ok (Json.obj (JFields.cons (strL "username")
        (Json.str (strL "bob")) JFields.nil)) ∧
    isAuthenticated (clearAuthData ⟨[], []⟩) = false :=
  have h := saveAuthData_amended ⟨[], []⟩
    ⟨strL "A", strL "B", some (Json.obj (JFields.cons (strL "username")
      (Json.str (strL "bob")) JFields.nil))⟩
    (Json.obj (JFields.cons (strL "username") (Json.str (strL "bob"))
      JFields.nil))
    (by decide)
  ⟨h.1 ⟨'A', [], rfl, by decide, by decide, by decide⟩,
    h.2.1 rfl (by decide), h.2.2⟩

/-- C8 counterexample: with the invalid serialized record "not json"
stored under `user`, getUserData propagates the deserialization failure
(JavaScript `JSON.parse` throws) instead of yielding nothing. -/
theorem getUserData_cex :
    getUserData ⟨[], [(strL "user", strL "not json")]⟩ = Except.error () ∧
    getUserData ⟨[], [(strL "user", strL "not json")]⟩ ≠ Except.ok Json.null := by
  constructor
  · rfl
  · intro h
    rw [show getUserData ⟨[], [(strL "user", strL "not json")]⟩ =
        Except.error () from rfl] at h
    exact Except.noConfusion h

/-- C8 (amended): getUserData returns the deserialized stored record
and yields nothing when the record is absent; but when the stored value
is present and not valid serialized data, the deserialization failure
propagates to the caller instead of yielding nothing. -/
theorem getUserData_amended (st : Storage) (u : Json) :
    (lookupAssoc st.localStore (strL "user") = none →
        getUserData st = Except.ok Json.null) ∧
    (lookupAssoc st.localStore (strL "user") = some (jsonStringify u) →
        getUserData st = Except.ok u) ∧
    (lookupAssoc st.localStore (strL "user") = some (strL "not json") →
        getUserData st = Except.error ()) := by
  refine ⟨?_, ?_, ?_⟩ <;> intro h <;> unfold getUserData <;> rw [h]
  · simp [jsonStringify_isEmpty, jsonParse_stringify]
  · rfl

/-- Witness for C8 (amended) on a storage holding a serialized
one-field profile. -/
theorem getUserData_amended_witness :
    lookupAssoc [(strL "user", jsonStringify (Json.obj (JFields.cons
        (strL "role") (Json.str (strL "agent")) JFields.nil)))] (strL "user") =
      some (jsonStringify (Json.obj (JFields.cons (strL "role")
        (Json.str (strL "agent")) JFields.nil))) ∧
    getUserData ⟨[], [(strL "user", jsonStringify (Json.obj (JFields.cons
        (strL "role") (Json.str (strL "agent")) JFields.nil)))]⟩ =
      Except.ok (Json.obj (JFields.cons (strL "role")
        (Json.str (strL "agent")) JFields.nil)) :=
  ⟨rfl,
    (getUserData_amended ⟨[], [(strL "user", jsonStringify (Json.obj
        (JFields.cons (strL "role") (Json.str (strL "agent"))
          JFields.nil)))]⟩
      (Json.obj (JFields.cons (strL "role") (Json.str (strL "agent"))
        JFields.nil))).2.1 rfl⟩

/-- C9 counterexample: the value "x " contains no '=' and no ';', yet
the setCookie-then-getCookie round trip returns "x" — `getCookie` trims
each cookie piece, so trailing whitespace is lost and the claimed
equivalence fails. -/
theorem getCookie_roundTrip_cex :
    (∀ c ∈ strL "x ", c ≠ ';') ∧ (∀ c ∈ strL "x ", c ≠ '=') ∧
    getCookie (strL "t") (cookieHeader (setCookie [] (strL "t") (strL "x "))) =
      some (strL "x") ∧
    strL "x" ≠ strL "x " := by
  refine ⟨by decide, by decide, by decide, by decide⟩

/-- C9 (amended): in a well-formed jar, getCookie after setCookie
returns the stored value — truncated at its first ';' and stripped of
leading and trailing whitespace by the browser at store time — further
truncated at its first '='; the round trip returns the original value
exactly when the value contains no ';', no '=', and no leading or
trailing whitespace. -/
theorem getCookie_roundTrip_amended (jar : CookieJar) (name value : List Char)
    (hj : WFJar jar) (hn : WFName name) :
    getCookie name (cookieHeader (setCookie jar name value)) =
      some ((trimStr (value.takeWhile (fun c => c ≠ ';'))).takeWhile
        (fun c => c ≠ '=')) ∧
    (getCookie name (cookieHeader (setCookie jar name value)) = some value ↔
      ((∀ c ∈ value, c ≠ ';') ∧ (∀ c ∈ value, c ≠ '=') ∧
        trimStr value = value)) := by
  have hset : setCookie jar name value =
      setAssoc jar name (trimStr (value.takeWhile (fun c => c ≠ ';'))) :=
    setCookie_eq jar name value hn
  have hwf : WFJar (setAssoc jar name
      (trimStr (value.takeWhile (fun c => c ≠ ';')))) :=
    WFJar_setAssoc hj hn fun c hc => tw_no_semi value c (mem_trim hc)
  have hread : getCookie name (cookieHeader (setCookie jar name value)) =
      some ((trimStr (value.takeWhile (fun c => c ≠ ';'))).takeWhile
        (fun c => c ≠ '=')) := by
    rw [hset, getCookie_header _ hn _ hwf, lookup_setAssoc_self,
      Option.map_some', rtrim_trim]
  refine ⟨hread, ?_⟩
  rw [hread, Option.some_inj]
  constructor
  · intro h
    have e1 : (value.takeWhile (fun c => c ≠ ';')).length ≤ value.length :=
      tw_length_le value
    have e2 : (trimStr (value.takeWhile (fun c => c ≠ ';'))).length ≤
        (value.takeWhile (fun c => c ≠ ';')).length :=
      trim_length_le _
    have e3 : ((trimStr (value.takeWhile (fun c => c ≠ ';'))).takeWhile
        (fun c => c ≠ '=')).length ≤
        (trimStr (value.takeWhile (fun c => c ≠ ';'))).length :=
      tw_length_le _
    have e0 : ((trimStr (value.takeWhile (fun c => c ≠ ';'))).takeWhile
        (fun c => c ≠ '=')).length = value.length := by rw [h]
    have hl1 : (value.takeWhile (fun c => c ≠ ';')).length = value.length := by
      omega
    have hq1 : value.takeWhile (fun c => c ≠ ';') = value :=
      tw_eq_of_length hl1
    rw [hq1] at e2 e3 e0 h
    have hl2 : (trimStr value).length = value.length := by omega
    have hq2 : trimStr value = value := trim_eq_of_length hl2
    rw [hq2] at h
    refine ⟨?_, ?_, hq2⟩
    · intro c hc
      have := all_of_tw_eq hq1 c hc
      simpa using this
    · intro c hc
      have := all_of_tw_eq h c hc
      simpa using this
  · rintro ⟨h1, h2, h3⟩
    rw [@tw_all Char (fun c => decide (c ≠ ';')) value
        (by intro c hc; simpa using h1 c hc), h3,
      @tw_all Char (fun c => decide (c ≠ '=')) value
        (by intro c hc; simpa using h2 c hc)]

/-- Witness for C9 (amended): cookie "sid" with value "abc" in an empty
jar. -/
theorem getCookie_roundTrip_amended_witness :
    getCookie (strL "sid") (cookieHeader (setCookie [] (strL "sid")
        (strL "abc"))) =
      some ((trimStr ((strL "abc").takeWhile (fun c => c ≠ ';'))).takeWhile
        (fun c => c ≠ '=')) ∧
    (getCookie (strL "sid") (cookieHeader (setCookie [] (strL "sid")
        (strL "abc"))) = some (strL "abc") ↔
      ((∀ c ∈ strL "abc", c ≠ ';') ∧ (∀ c ∈ strL "abc", c ≠ '=') ∧
        trimStr (strL "abc") = strL "abc")) :=
  getCookie_roundTrip_amended [] (strL "sid") (strL "abc")
    (by decide) (by decide)

/-- C10: when save is called with no user profile, the stored profile
record is left untouched (the localStorage tier is unchanged) and only
the two token cookies are written (every other cookie reads back
unchanged). -/
theorem saveAuthData_frame (st : Storage) (a : AuthData) (h : a.user = none) :
    (saveAuthData st a).localStore = st.localStore ∧
    ∀ n, n ≠ strL "access_token" → n ≠ strL "refresh_token" →
      lookupAssoc (saveAuthData st a).cookies n = lookupAssoc st.cookies n := by
  constructor
  · unfold saveAuthData
    rw [h]
  · intro n h1 h2
    rw [saveAuthData_cookies,
      setCookie_eq _ _ _ (show WFName (strL "access_token") by decide),
      setCookie_eq _ _ _ (show WFName (strL "refresh_token") by decide),
      lookup_setAssoc_ne _ _ _ _ h2, lookup_setAssoc_ne _ _ _ _ h1]

/-- Witness for C10: saving tokens only, over a storage already holding
a `theme` cookie and a stored profile. -/
theorem saveAuthData_frame_witness :
    (saveAuthData ⟨[(strL "theme", strL "dark")], [(strL "user", strL "u0")]⟩
        ⟨strL "A", strL "B", none⟩).localStore = [(strL "user", strL "u0")] ∧
    lookupAssoc (saveAuthData
        ⟨[(strL "theme", strL "dark")], [(strL "user", strL "u0")]⟩
        ⟨strL "A", strL "B", none⟩).cookies (strL "theme") =
      lookupAssoc [(strL "theme", strL "dark")] (strL "theme") :=
  have h := saveAuthData_frame
    ⟨[(strL "theme", strL "dark")], [(strL "user", strL "u0")]⟩
    ⟨strL "A", strL "B", none⟩ rfl
  ⟨h.1, h.2 (strL "theme") (by decide) (by decide)⟩
